import Mathlib

/-!
# Verification of the MagicMirror config manager (`mm_config_mgr.py`)

A shallow embedding of the core of `mm_config_mgr.py`:

* the block extractor `extract_module_block` (brace-depth scan over lines),
* the template populator `populate_templates`,
* the config assembler `generate_config`,
* the transaction wrapper `test_flow` with `backup`/`rollback`.

Python strings become Lean `String`s (lists of characters); the file system
becomes explicit environments mapping names to `Option String` (`none` means
the file does not exist); `die` / raised exceptions become `Except` values or
explicit outcome constructors.  Every definition mirrors the corresponding
lines of the Python source, noted in its doc comment.
-/

/-- Characters matched by Python's regex class `\s` on `str` patterns:
exactly the characters for which `str.isspace()` holds — ASCII
whitespace, the separator controls 0x1c–0x1f (`re.match` of `\s`
accepts `\x1c`), and the Unicode whitespace code points. -/
def isSpaceCh (c : Char) : Bool :=
  c.val == 32 || c.val == 9 || c.val == 10 || c.val == 11 || c.val == 12 ||
  c.val == 13 || (28 ≤ c.val && c.val ≤ 31) ||
  c.val == 0x85 || c.val == 0xa0 || c.val == 0x1680 ||
  (0x2000 ≤ c.val && c.val ≤ 0x200a) ||
  c.val == 0x2028 || c.val == 0x2029 || c.val == 0x202f ||
  c.val == 0x205f || c.val == 0x3000

/-- Characters stripped by Python's `str.rstrip()`: the `str.isspace()`
set, i.e. the same class `\s` matches on `str` patterns. -/
def isPyWs (c : Char) : Bool :=
  isSpaceCh c

/-- A double quote (34) or single quote (39), i.e. the regex class
`["\x27]` used in the module-declaration pattern. -/
def isQuoteCh (c : Char) : Bool :=
  c.val == 34 || c.val == 39

/-- Source `mm_config_mgr.py:232` — Python `str.rstrip()` on the fragment text. -/
def pyRstrip (s : String) : String :=
  String.mk ((s.data.reverse.dropWhile isPyWs).reverse)

/-- Source `mm_config_mgr.py:235-236` — remove one trailing comma if present
(`if module_content.endswith(",")`: module_content[:-1]`). -/
def stripTrailingComma (s : String) : String :=
  match s.data.getLast? with
  | some c => if c.val == 44 then String.mk s.data.dropLast else s
  | none => s

/-- The file-system environment the assembler reads: the `head`, `tail`
and `pages` files of `~/my_config`, and the fragment store
`templates/<name>.js` keyed by module name.  `none` models a file that
does not exist. -/
structure Env where
  head : Option String
  tail : Option String
  pages : Option String
  templates : String → Option String

/-- Source `mm_config_mgr.py:238-245` — the text appended for one module:
six spaces of canonical indentation, the fragment with trailing
whitespace and one trailing comma stripped, an optional separator comma,
and a newline. -/
def entityChunk (tpl : String) (sep : Bool) : String :=
  "      " ++ stripTrailingComma (pyRstrip tpl) ++ (if sep then "," else "") ++ "\n"

/-- Source `mm_config_mgr.py:227-245` — the module loop of `generate_config`:
for the `i`-th of `n` modules, die on a missing template, otherwise
append `entityChunk` with a separator iff `i < n - 1` or pages are in
use (`if i < len(modules) - 1 or use_pages`). -/
def buildModules (T : String → Option String) (n : Nat) (up : Bool) :
    Nat → List String → Except String String
  | _, [] => Except.ok ""
  | i, m :: rest =>
    match T m with
    | none => Except.error (("Missing template for ") ++ m)
    | some t =>
      (buildModules T n up (i + 1) rest).map
        (fun r => entityChunk t (decide (i < n - 1) || up) ++ r)

/-- Source `mm_config_mgr.py:252-256` — substitute the `MODULE` placeholder in
the pages template.  Python only substitutes when `pages_module_name` is
truthy (`if pages_module_name:`), so `None` and the empty string both
leave the template unchanged. -/
def pagesSubst (p : String) (pmn : Option String) : String :=
  match pmn with
  | some nm => if nm = "" then p else String.replace p ("MODULE") nm
  | none => p

/-- Source `mm_config_mgr.py:210-263` — `generate_config`.  `.error msg` models
`die(msg)` (no output written); `.ok c` models the single final
`CONFIG_JS.write_text(c)`.  Checks happen in source order: head, tail,
each module template in plan order, then the pages file. -/
def generate_config (env : Env) (modules : List String) (use_pages : Bool)
    (pages_module_name : Option String) : Except String String :=
  match env.head with
  | none => Except.error ("Missing head file")
  | some headText =>
    match env.tail with
    | none => Except.error ("Missing tail file")
    | some tailText =>
      match buildModules env.templates modules.length use_pages 0 modules with
      | Except.error e => Except.error e
      | Except.ok modsText =>
        if use_pages then
          match env.pages with
          | none => Except.error ("Missing pages file")
          | some p =>
            Except.ok (headText ++ modsText ++ pagesSubst p pages_module_name ++ tailText)
        else Except.ok (headText ++ modsText ++ tailText)

/-- Python `text.split("\n")` on the character list: always returns at
least one (possibly empty) line, and one extra line per newline. -/
def splitLines : List Char → List (List Char)
  | [] => [[]]
  | c :: cs =>
    let r := splitLines cs
    if c = '\n' then [] :: r
    else (c :: r.headD []) :: r.tail

/-- Source `mm_config_mgr.py:119` — `lines = text.split("\n")`. -/
def pyLines (text : String) : List String :=
  (splitLines text.data).map String.mk

/-- Python `"\n".join(lines)` (`mm_config_mgr.py:162`). -/
def joinLines : List String → String
  | [] => ""
  | [l] => l
  | l :: rest => l ++ "\n" ++ joinLines rest

/-- The tail of the declaration regex after the literal `module:`:
`\s*["\x27]<name>["\x27]` where `<name>` is matched literally (Python
escapes it with `re.escape`, so regex metacharacters in the name have no
effect).  Greedy `\s*` is deterministic here because quotes are not
whitespace. -/
def matchAfterKey (l m : List Char) : Bool :=
  match l.dropWhile isSpaceCh with
  | [] => false
  | q :: rest =>
    isQuoteCh q && m.isPrefixOf rest &&
      (match rest.drop m.length with
       | [] => false
       | q' :: _ => isQuoteCh q')

/-- Source `mm_config_mgr.py:125` — `re.search` of
`module:\s*["\x27]` + `re.escape(module)` + `["\x27]` on one line: true iff
the pattern matches starting at some position of the line. -/
def declMatch : List Char → List Char → Bool
  | [], _ => false
  | c :: cs, m =>
    (List.isPrefixOf ("module:".data) (c :: cs) && matchAfterKey ((c :: cs).drop 7) m)
      || declMatch cs m

/-- A line declaring the module (`mm_config_mgr.py:123-127`). -/
def declLine (l m : String) : Bool :=
  declMatch l.data m.data

/-- Source `mm_config_mgr.py:135` / `139` — `re.match(r"^\s*\{\s*$", line)`:
the line is exactly one opening brace surrounded by whitespace. -/
def braceOnly (l : String) : Bool :=
  match l.data.dropWhile isSpaceCh with
  | c :: rest => c = '{' && rest.all isSpaceCh
  | [] => false

/-- Source `mm_config_mgr.py:149-150` — `line.count("{") - line.count("}")`,
the depth contribution of one line. -/
def lineDelta (l : String) : Int :=
  (l.data.count '{' : Int) - (l.data.count '}' : Int)

/-- Source `mm_config_mgr.py:122-127` — the `for i, line in enumerate(lines)`
loop: index of the first line matching the declaration pattern. -/
def findDecl (m : String) : List String → Option Nat
  | [] => none
  | l :: rest =>
    if declLine l m then some 0 else (findDecl m rest).map (· + 1)

/-- Source `mm_config_mgr.py:133-137` — the backward scan: starting at the
declaration index, walk towards index 0 and stop at the first line that
is only an opening brace; reaching index 0 stops unconditionally. -/
def backScan (lines : List String) : Nat → Nat
  | 0 => 0
  | i + 1 => if braceOnly (lines.getD (i + 1) "") then i + 1 else backScan lines i

/-- Source `mm_config_mgr.py:144-154` — the forward scan
`for i in range(start_idx, len(lines))`: add each line's brace delta to
`depth`; break with `some i` at the first line where the depth is zero
and `i > start_idx`.  Returns the final depth and the break index (if
any), i.e. `(brace_count, end_idx?)`. -/
def braceScan : Int → Nat → Nat → List String → Int × Option Nat
  | depth, _, _, [] => (depth, none)
  | depth, i, start, l :: rest =>
    let d := depth + lineDelta l
    if d = 0 ∧ start < i then (d, some i)
    else braceScan d (i + 1) start rest

/-- Source `mm_config_mgr.py:115-162` — `extract_module_block`.  `none` models
returning `None`; `some b` models returning the joined block lines
`lines[start_idx : end_idx + 1]`.  The `(c, none)` / `c = 0` case mirrors
the fall-through where the loop never breaks yet `brace_count == 0`
(then `end_idx == start_idx`); it is unreachable because the start line
always contains exactly one opening brace. -/
def extract_module_block (text module : String) : Option String :=
  match findDecl module (pyLines text) with
  | none => none
  | some j =>
    if backScan (pyLines text) j = 0 ∧ braceOnly ((pyLines text).getD 0 "") = false
    then none
    else
      match braceScan 0 (backScan (pyLines text) j) (backScan (pyLines text) j)
          ((pyLines text).drop (backScan (pyLines text) j)) with
      | (c, none) =>
        if c ≠ 0 then none
        else some (joinLines (((pyLines text).drop (backScan (pyLines text) j)).take 1))
      | (_, some e) =>
        some (joinLines (((pyLines text).drop (backScan (pyLines text) j)).take
          (e - backScan (pyLines text) j + 1)))

/-- The sum of the brace deltas of the first `t` lines of `L`: the
depth reached after the forward scan has processed `t` lines. -/
def psum (L : List String) (t : Nat) : Int :=
  ((L.take t).map lineDelta).sum

/-- The cumulative brace depth of `lines` after processing line `k`,
counting from line `start` (both inclusive) — the running counter of
the forward scan of `extract_module_block`. -/
def depthTo (lines : List String) (start k : Nat) : Int :=
  psum (lines.drop start) (k - start + 1)

/-- The list of per-module text chunks emitted by the module loop of
`generate_config`, starting at loop index `i` of `n` modules. -/
def chunkList (T : String → Option String) (n : Nat) (up : Bool) :
    Nat → List String → List String
  | _, [] => []
  | i, m :: rest =>
    entityChunk ((T m).getD "") (decide (i < n - 1) || up)
      :: chunkList T n up (i + 1) rest

/-- Concatenation of a list of strings (the incremental
`config_content +=` accumulation of the module loop). -/
def joinAll : List String → String
  | [] => ""
  | c :: cs => c ++ joinAll cs

/-- The fragment store: `templates/<name>.js` keyed by module name;
`none` models a missing fragment file. -/
def Store : Type := String → Option String

/-- The sources `populate_templates` reads: the master record's text,
and per module its `README.md` text and `sample/<name>.js` text (when
those files exist). -/
structure PopEnv where
  masterText : String
  readme : String → Option String
  sample : String → Option String

/-- Python truthiness of an optional extracted block: `if block:` is
false for `None` and for the empty string. -/
def truthy (o : Option String) : Bool :=
  match o with
  | some s => !(s == "")
  | none => false

/-- Source `mm_config_mgr.py:183-202` — the candidate sources for one module's
fragment, in priority order: extract from the master text; else extract
from the module's README (if present); else the verbatim sample file
(if present). -/
def firstSource (env : PopEnv) (m : String) : Option String :=
  if truthy (extract_module_block env.masterText m) then
    extract_module_block env.masterText m
  else if truthy (match env.readme m with
                  | some rt => extract_module_block rt m
                  | none => none) then
    (match env.readme m with
     | some rt => extract_module_block rt m
     | none => none)
  else env.sample m

/-- Source `mm_config_mgr.py:172-204` — the body of the `populate_templates`
loop for one module: skip names in the reserved `default/` set, skip
modules whose fragment already exists (never overwrite), otherwise
write the first available source (or skip with a warning if none). -/
def popStep (env : PopEnv) (s : Store) (m : String) : Store :=
  if List.isPrefixOf ("default/".data) m.data then s
  else if (s m).isSome then s
  else
    match firstSource env m with
    | some b => fun n => if n = m then some b else s n
    | none => s

/-- Source `mm_config_mgr.py:169-204` — `populate_templates` over the list of
installed modules. -/
def populate_templates (env : PopEnv) (mods : List String) (s : Store) : Store :=
  mods.foldl (popStep env) s

/-- The persisted transactional state: the master record
(`config.Master`), the active output (`config.js`), and their two
fixed backup slots.  `none` models a file that does not exist. -/
structure FS where
  master : Option String
  masterBak : Option String
  configJs : Option String
  configJsBak : Option String

/-- Source `mm_config_mgr.py:41-45` — `backup()`: copy each of the two files
onto its backup slot if it exists (a missing file leaves the stale slot
untouched). -/
def backup (fs : FS) : FS :=
  { fs with
    masterBak := match fs.master with
                 | some m => some m
                 | none => fs.masterBak
    configJsBak := match fs.configJs with
                   | some c => some c
                   | none => fs.configJsBak }

/-- Source `mm_config_mgr.py:47-52` — `rollback()`: copy each backup slot back
onto its file if the slot exists. -/
def rollback (fs : FS) : FS :=
  { fs with
    master := match fs.masterBak with
              | some m => some m
              | none => fs.master
    configJs := match fs.configJsBak with
                | some c => some c
                | none => fs.configJs }

/-- The outcome of `run_mm_test` (`mm_config_mgr.py:265-268`):
`completed ok` models `subprocess.run(["pm2", "restart", name])`
returning with exit status success/failure — with `check=False` both
return normally and `ok` is never inspected; `unreachable` models the
call raising (e.g. `FileNotFoundError` when `pm2` is absent), which
propagates to `test_flow`'s `except` clause. -/
inductive VerifyOutcome
  | completed (ok : Bool)
  | unreachable
deriving DecidableEq

/-- How a `test_flow` transaction ends: `exited` models `die` →
`rollback` → `exit(1)`; `returned b` models a normal return of `b`. -/
inductive TransResult
  | exited
  | returned (accepted : Bool)
deriving DecidableEq

/-- A mutation of the master record during a transaction: `restore`
(rollback copies the backup slot back) or `accept` (the Accepted
transition overwrites the master with the new output). -/
inductive MWrite
  | restore (content : String)
  | accept (content : String)
deriving DecidableEq

/-- The master-record writes performed by one `rollback()` call. -/
def rollbackLog (fs : FS) : List MWrite :=
  match fs.masterBak with
  | some b => [MWrite.restore b]
  | none => []

/-- Source `mm_config_mgr.py:274-292` — `test_flow`: backup, assemble (die →
rollback → exit on failure), restart the external process (an exception
→ die → rollback → exit; a mere failing exit status is ignored because
of `check=False`), then optionally offer to update the master: decline
→ rollback, confirm → overwrite master with the new output.  Returns
the transaction result, the final file state, and the list of
master-record writes performed. -/
def test_flow (env : Env) (fs0 : FS) (mods : List String) (allow_pages : Bool)
    (pmn : Option String) (allow_master_update : Bool)
    (verify : VerifyOutcome) (confirmAnswer : Bool) :
    TransResult × FS × List MWrite :=
  let fs1 := backup fs0
  match generate_config env mods allow_pages pmn with
  | Except.error _ => (TransResult.exited, rollback fs1, rollbackLog fs1)
  | Except.ok c =>
    let fs2 := { fs1 with configJs := some c }
    match verify with
    | VerifyOutcome.unreachable =>
      (TransResult.exited, rollback fs2, rollbackLog fs2)
    | VerifyOutcome.completed _ =>
      if allow_master_update then
        if confirmAnswer then
          (TransResult.returned true, { fs2 with master := some c }, [MWrite.accept c])
        else (TransResult.returned false, rollback fs2, rollbackLog fs2)
      else (TransResult.returned false, fs2, [])

/-- The assembler environment of the C2 scenario: prologue `"A\x7b\n"`,
epilogue `"\x7d\n"`, fragments `"  x: 1,"` for `x` and `"  y: 2"` for `y`. -/
def envC2 : Env where
  head := some "A\x7b\n"
  tail := some "\x7d\n"
  pages := none
  templates := fun m => if m = "x" then some "  x: 1," else
    if m = "y" then some "  y: 2" else none

/-- Whether a master-record write is the Accepted-transition overwrite
(as opposed to a rollback restore). -/
def isAcceptW : MWrite → Bool
  | MWrite.accept _ => true
  | MWrite.restore _ => false

theorem psum_zero (L : List String) : psum L 0 = 0 := by
  simp [psum]

theorem psum_cons (l : String) (L : List String) (t : Nat) :
    psum (l :: L) (t + 1) = lineDelta l + psum L t := by
  simp [psum, List.take_succ_cons]

theorem space_not_brace {c : Char} (h : isSpaceCh c = true) :
    c ≠ '{' ∧ c ≠ '}' := by
  constructor
  · rintro rfl; exact absurd h (by decide)
  · rintro rfl; exact absurd h (by decide)

theorem braceOnly_decomp {l : String} (h : braceOnly l = true) :
    ∃ sp rest, l.data = sp ++ '{' :: rest
      ∧ (∀ c ∈ sp, isSpaceCh c = true) ∧ (∀ c ∈ rest, isSpaceCh c = true) := by
  unfold braceOnly at h
  cases hdw : l.data.dropWhile isSpaceCh with
  | nil => rw [hdw] at h; simp at h
  | cons c rest =>
    rw [hdw] at h
    simp only [Bool.and_eq_true, decide_eq_true_eq, List.all_eq_true] at h
    obtain ⟨hc, hall⟩ := h
    refine ⟨l.data.takeWhile isSpaceCh, rest, ?_, ?_, hall⟩
    · conv_lhs => rw [← List.takeWhile_append_dropWhile (p := isSpaceCh) (l := l.data)]
      rw [hdw, hc]
    · intro a ha
      have := List.all_takeWhile (p := isSpaceCh) (l := l.data)
      exact List.all_eq_true.mp this a ha

theorem count_eq_zero_of_space {sp : List Char} (hsp : ∀ c ∈ sp, isSpaceCh c = true) :
    sp.count '{' = 0 ∧ sp.count '}' = 0 := by
  constructor
  · exact List.count_eq_zero.mpr (fun hm => (space_not_brace (hsp _ hm)).1 rfl)
  · exact List.count_eq_zero.mpr (fun hm => (space_not_brace (hsp _ hm)).2 rfl)

theorem braceOnly_delta {l : String} (h : braceOnly l = true) : lineDelta l = 1 := by
  obtain ⟨sp, rest, hdata, hsp, hrest⟩ := braceOnly_decomp h
  have h1 := count_eq_zero_of_space hsp
  have h2 := count_eq_zero_of_space hrest
  unfold lineDelta
  rw [hdata]
  simp [List.count_append, List.count_cons, h1.1, h1.2, h2.1, h2.2]

theorem declMatch_colon_mem : ∀ (l m : List Char), declMatch l m = true → ':' ∈ l := by
  intro l
  induction l with
  | nil => intro m h; simp [declMatch] at h
  | cons c cs ih =>
    intro m h
    unfold declMatch at h
    simp only [Bool.or_eq_true] at h
    rcases h with h1 | h2
    · simp only [Bool.and_eq_true] at h1
      have hpre := List.isPrefixOf_iff_prefix.mp h1.1
      obtain ⟨t, ht⟩ := hpre
      have : ':' ∈ ("module:".data) ++ t := List.mem_append_left _ (by decide)
      rw [ht] at this
      exact this
    · exact List.mem_cons_of_mem _ (ih m h2)

theorem declLine_not_braceOnly {l m : String} (h : declLine l m = true) :
    braceOnly l = false := by
  by_contra hb
  have hb' : braceOnly l = true := by
    cases hbo : braceOnly l
    · exact absurd hbo hb
    · rfl
  obtain ⟨sp, rest, hdata, hsp, hrest⟩ := braceOnly_decomp hb'
  have hcolon : ':' ∈ l.data := declMatch_colon_mem _ _ h
  rw [hdata] at hcolon
  rcases List.mem_append.mp hcolon with hm | hm
  · exact absurd (hsp _ hm) (by decide)
  · rcases List.mem_cons.mp hm with he | hm'
    · exact absurd he (by decide)
    · exact absurd (hrest _ hm') (by decide)

theorem findDecl_lt_length {m : String} :
    ∀ {lines : List String} {j : Nat}, findDecl m lines = some j → j < lines.length := by
  intro lines
  induction lines with
  | nil => intro j h; simp [findDecl] at h
  | cons l rest ih =>
    intro j h
    unfold findDecl at h
    split at h
    · simp at h
      simp
      omega
    · cases hf : findDecl m rest with
      | none => rw [hf] at h; simp at h
      | some j' =>
        rw [hf] at h
        simp at h
        have := ih hf
        simp
        omega

theorem findDecl_decl {m : String} :
    ∀ {lines : List String} {j : Nat}, findDecl m lines = some j →
      declLine (lines.getD j "") m = true := by
  intro lines
  induction lines with
  | nil => intro j h; simp [findDecl] at h
  | cons l rest ih =>
    intro j h
    unfold findDecl at h
    split at h
    · simp at h
      subst h
      assumption
    · cases hf : findDecl m rest with
      | none => rw [hf] at h; simp at h
      | some j' =>
        rw [hf] at h
        simp at h
        subst h
        simpa using ih hf

theorem findDecl_eq_none {m : String} :
    ∀ {lines : List String}, (∀ l ∈ lines, declLine l m = false) →
      findDecl m lines = none := by
  intro lines
  induction lines with
  | nil => intro _; rfl
  | cons l rest ih =>
    intro h
    unfold findDecl
    rw [if_neg, ih (fun x hx => h x (List.mem_cons_of_mem _ hx))]
    · rfl
    · simp [h l (List.mem_cons_self _ _)]

theorem backScan_le (lines : List String) : ∀ j, backScan lines j ≤ j := by
  intro j
  induction j with
  | zero => simp [backScan]
  | succ i ih =>
    unfold backScan
    split
    · exact le_refl _
    · exact Nat.le_succ_of_le ih

theorem backScan_pos_brace (lines : List String) :
    ∀ j, 0 < backScan lines j → braceOnly (lines.getD (backScan lines j) "") = true := by
  intro j
  induction j with
  | zero => intro h; simp [backScan] at h
  | succ i ih =>
    unfold backScan
    split
    · intro _; assumption
    · exact ih

theorem backScan_eq_zero (lines : List String) :
    ∀ j, (∀ i, i ≤ j → braceOnly (lines.getD i "") = false) →
      backScan lines j = 0 := by
  intro j
  induction j with
  | zero => intro _; rfl
  | succ i ih =>
    intro h
    unfold backScan
    rw [if_neg]
    · exact ih (fun k hk => h k (Nat.le_succ_of_le hk))
    · intro hcontra
      rw [h (i + 1) (le_refl _)] at hcontra
      exact absurd hcontra (by decide)

theorem backScan_eq_of (lines : List String) :
    ∀ j s, s ≤ j → braceOnly (lines.getD s "") = true →
      (∀ i, s < i → i ≤ j → braceOnly (lines.getD i "") = false) →
      backScan lines j = s := by
  intro j
  induction j with
  | zero =>
    intro s hs _ _
    interval_cases s
    rfl
  | succ i ih =>
    intro s hs hbs hbetween
    unfold backScan
    by_cases he : s = i + 1
    · rw [if_pos (he ▸ hbs)]
      exact he.symm
    · rw [if_neg]
      · exact ih s (by omega) hbs (fun k hk1 hk2 => hbetween k hk1 (by omega))
      · intro hcontra
        rw [hbetween (i + 1) (by omega) (le_refl _)] at hcontra
        exact absurd hcontra (by decide)

theorem braceScan_none :
    ∀ (L : List String) (d : Int) (i start : Nat),
      (∀ t, t < L.length → ¬(d + psum L (t + 1) = 0 ∧ start < i + t)) →
      braceScan d i start L = (d + psum L L.length, none) := by
  intro L
  induction L with
  | nil => intro d i start _; simp [braceScan, psum]
  | cons l rest ih =>
    intro d i start h
    simp only [braceScan]
    rw [if_neg]
    · have hrec := ih (d + lineDelta l) (i + 1) start (by
        intro t ht hcontra
        have := h (t + 1) (by simpa using Nat.succ_lt_succ ht)
        apply this
        constructor
        · rw [psum_cons]
          omega
        · omega)
      rw [hrec, List.length_cons, psum_cons, add_assoc]
    · have := h 0 (by simp)
      intro hcontra
      apply this
      constructor
      · rw [psum_cons, psum_zero]
        omega
      · omega

theorem braceScan_some :
    ∀ (L : List String) (d : Int) (i start e : Nat),
      i ≤ e → e - i < L.length →
      d + psum L (e - i + 1) = 0 → start < e →
      (∀ k, i ≤ k → k < e → ¬(d + psum L (k - i + 1) = 0 ∧ start < k)) →
      braceScan d i start L = (0, some e) := by
  intro L
  induction L with
  | nil => intro d i start e _ h2 _ _ _; simp at h2
  | cons l rest ih =>
    intro d i start e hie hlen hzero hse hmin
    simp only [braceScan]
    by_cases he : e = i
    · subst he
      have h1 : psum (l :: rest) (e - e + 1) = lineDelta l := by
        rw [Nat.sub_self, psum_cons, psum_zero, add_zero]
      rw [h1] at hzero
      rw [if_pos ⟨hzero, hse⟩, hzero]
    · have hlt : i < e := lt_of_le_of_ne hie (Ne.symm he)
      rw [if_neg]
      · apply ih (d + lineDelta l) (i + 1) start e (by omega)
        · rw [List.length_cons] at hlen
          omega
        · have harith : e - i + 1 = (e - (i + 1) + 1) + 1 := by omega
          rw [harith, psum_cons] at hzero
          omega
        · exact hse
        · intro k hk1 hk2
          have := hmin k (by omega) hk2
          intro hcontra
          apply this
          constructor
          · have harith : k - i + 1 = (k - (i + 1) + 1) + 1 := by omega
            rw [harith, psum_cons]
            omega
          · exact hcontra.2
      · have := hmin i le_rfl hlt
        intro hcontra
        apply this
        constructor
        · rw [Nat.sub_self, psum_cons, psum_zero]
          omega
        · omega

/-- C5: extraction returns NotFound (`none`), never a partial block,
whenever (a) no line declares the entity, or (b) the declaring line has
no line at or before it consisting solely of an opening brace, or
(c) the document ends before the forward scan's cumulative brace depth
returns to zero strictly after the scan's start line. -/
theorem extract_module_block_not_found (text module : String)
    (h :
      (∀ l ∈ pyLines text, declLine l module = false)
      ∨ (∃ j, findDecl module (pyLines text) = some j ∧
          ∀ i, i < j → braceOnly ((pyLines text).getD i "") = false)
      ∨ (∃ j, findDecl module (pyLines text) = some j ∧
          ∀ k, k < (pyLines text).length → backScan (pyLines text) j < k →
            depthTo (pyLines text) (backScan (pyLines text) j) k ≠ 0)) :
    extract_module_block text module = none := by
  rcases h with ha | hb | hc
  · have hf : findDecl module (pyLines text) = none := findDecl_eq_none ha
    unfold extract_module_block
    rw [hf]
  · obtain ⟨j, hj, hpre⟩ := hb
    have hd := findDecl_decl hj
    have hjb : braceOnly ((pyLines text).getD j "") = false := declLine_not_braceOnly hd
    have hall : ∀ i, i ≤ j → braceOnly ((pyLines text).getD i "") = false := by
      intro i hi
      rcases Nat.lt_or_ge i j with hlt | hge
      · exact hpre i hlt
      · have hij : i = j := by omega
        rw [hij]; exact hjb
    have hbs : backScan (pyLines text) j = 0 := backScan_eq_zero _ _ hall
    have h0 : braceOnly ((pyLines text).getD 0 "") = false := hall 0 (Nat.zero_le _)
    simp only [extract_module_block, hj]
    rw [if_pos ⟨hbs, h0⟩]
  · obtain ⟨j, hj, hnz⟩ := hc
    have hjlt : j < (pyLines text).length := findDecl_lt_length hj
    have hsle : backScan (pyLines text) j ≤ j := backScan_le _ _
    have hslt : backScan (pyLines text) j < (pyLines text).length := lt_of_le_of_lt hsle hjlt
    have hdroplen : ((pyLines text).drop (backScan (pyLines text) j)).length
        = (pyLines text).length - backScan (pyLines text) j := List.length_drop _ _
    by_cases hguard : backScan (pyLines text) j = 0
        ∧ braceOnly ((pyLines text).getD 0 "") = false
    · simp only [extract_module_block, hj]
      rw [if_pos hguard]
    · have hbrace : braceOnly ((pyLines text).getD (backScan (pyLines text) j) "") = true := by
        rcases Nat.eq_zero_or_pos (backScan (pyLines text) j) with h0 | hpos
        · rw [h0]
          cases hbo : braceOnly ((pyLines text).getD 0 "")
          · exact absurd ⟨h0, hbo⟩ hguard
          · rfl
        · exact backScan_pos_brace _ _ hpos
      have hnone := braceScan_none ((pyLines text).drop (backScan (pyLines text) j)) 0
          (backScan (pyLines text) j) (backScan (pyLines text) j) (by
        intro t ht hcontra
        obtain ⟨hz, hlt⟩ := hcontra
        have ht' : 0 < t := by omega
        have hklen : backScan (pyLines text) j + t < (pyLines text).length := by
          rw [hdroplen] at ht; omega
        apply hnz (backScan (pyLines text) j + t) hklen (by omega)
        unfold depthTo
        have harith : backScan (pyLines text) j + t - backScan (pyLines text) j + 1
            = t + 1 := by omega
        rw [harith]
        omega)
      have hfin : 0 + psum ((pyLines text).drop (backScan (pyLines text) j))
          ((pyLines text).drop (backScan (pyLines text) j)).length ≠ 0 := by
        rcases Nat.lt_or_ge (backScan (pyLines text) j + 1) ((pyLines text).length)
          with hlt2 | hge2
        · have hk := hnz ((pyLines text).length - 1) (by omega) (by omega)
          unfold depthTo at hk
          have harith : (pyLines text).length - 1 - backScan (pyLines text) j + 1
              = ((pyLines text).drop (backScan (pyLines text) j)).length := by
            rw [hdroplen]; omega
          rw [harith] at hk
          intro hcontra
          apply hk
          omega
        · have hlen1 : ((pyLines text).drop (backScan (pyLines text) j)).length = 1 := by
            rw [hdroplen]; omega
          obtain ⟨a, ha⟩ := List.length_eq_one.mp hlen1
          have hcons : (pyLines text).drop (backScan (pyLines text) j)
              = (pyLines text)[backScan (pyLines text) j]
                :: (pyLines text).drop (backScan (pyLines text) j + 1) :=
            List.drop_eq_getElem_cons hslt
          rw [ha] at hcons
          have haeq : a = (pyLines text)[backScan (pyLines text) j] :=
            (List.cons.injEq _ _ _ _ ▸ hcons).1
          have hb2 : braceOnly a = true := by
            rw [haeq]
            rw [List.getD_eq_getElem _ _ hslt] at hbrace
            exact hbrace
          rw [ha]
          have hp : psum [a] ([a].length) = lineDelta a := by
            simp [psum]
          rw [hp, braceOnly_delta hb2]
          decide
      simp only [extract_module_block, hj]
      rw [if_neg hguard, hnone]
      exact if_pos hfin

theorem joinLines_count (c : Char) (hc : (c == Char.ofNat 10) = false) :
    ∀ ls : List String, (joinLines ls).data.count c
      = (ls.map (fun l => l.data.count c)).sum := by
  intro ls
  induction ls with
  | nil => simp [joinLines]
  | cons l rest ih =>
    cases rest with
    | nil => simp [joinLines]
    | cons l2 rest2 =>
      show ((l ++ "\n" ++ joinLines (l2 :: rest2))).data.count c = _
      have hdata : ("\n" : String).data = [Char.ofNat 10] := rfl
      rw [String.data_append, String.data_append, hdata]
      rw [List.count_append, List.count_append, ih]
      have hne : ¬(c = Char.ofNat 10) := by simpa using hc
      have hne2 : ¬(Char.ofNat 10 = c) := fun h => hne h.symm
      have h0 : [Char.ofNat 10].count c = 0 := by
        simp [List.count_cons, hne, hne2]
      rw [h0]
      simp

theorem delta_sum : ∀ ls : List String,
    (ls.map lineDelta).sum
      = (Nat.cast ((ls.map (fun l => l.data.count '{')).sum) : Int)
        - Nat.cast ((ls.map (fun l => l.data.count '}')).sum) := by
  intro ls
  induction ls with
  | nil => simp
  | cons l rest ih =>
    simp only [List.map_cons, List.sum_cons, ih, lineDelta]
    push_cast
    ring

/-- C4 (amended): if the document declares the module at first index
`j`, the nearest standalone opening-brace line at or before `j` is at
index `s`, and the cumulative brace depth counted from line `s` first
returns to zero at line `e` strictly after `s`, then extraction succeeds
and returns exactly lines `s..e` joined — a block whose first line is
that opening-brace line, whose last line is the first depth-zero line,
and whose opening-brace count equals its closing-brace count.  (The
original claim's premise — any balanced-brace document — does not
guarantee the depth-return condition; see the counterexample.) -/
theorem extract_module_block_success (text module : String) (j s e : Nat)
    (hj : findDecl module (pyLines text) = some j)
    (hsle : s ≤ j)
    (hbrace : braceOnly ((pyLines text).getD s "") = true)
    (hbetween : ∀ i, i < j + 1 → s < i → braceOnly ((pyLines text).getD i "") = false)
    (hse : s < e) (helen : e < (pyLines text).length)
    (hzero : depthTo (pyLines text) s e = 0)
    (hmin : ∀ k, k < e → s < k → depthTo (pyLines text) s k ≠ 0) :
    extract_module_block text module
      = some (joinLines (((pyLines text).drop s).take (e - s + 1)))
    ∧ (joinLines (((pyLines text).drop s).take (e - s + 1))).data.count '{'
      = (joinLines (((pyLines text).drop s).take (e - s + 1))).data.count '}' := by
  have hbs : backScan (pyLines text) j = s :=
    backScan_eq_of _ j s hsle hbrace (fun i hsi hij => hbetween i (by omega) hsi)
  have hzero' : psum ((pyLines text).drop s) (e - s + 1) = 0 := hzero
  have hscan : braceScan 0 s s ((pyLines text).drop s) = (0, some e) := by
    apply braceScan_some _ 0 s s e (le_of_lt hse)
    · rw [List.length_drop]; omega
    · omega
    · exact hse
    · intro k hk1 hk2 hcontra
      obtain ⟨hz, hlt⟩ := hcontra
      apply hmin k hk2 hlt
      show psum ((pyLines text).drop s) (k - s + 1) = 0
      omega
  have hguard : ¬(s = 0 ∧ braceOnly ((pyLines text).getD 0 "") = false) := by
    rintro ⟨h1, h2⟩
    rw [h1] at hbrace
    rw [hbrace] at h2
    exact absurd h2 (by decide)
  constructor
  · simp only [extract_module_block, hj, hbs]
    rw [if_neg hguard, hscan]
  · have hsum : ((((pyLines text).drop s).take (e - s + 1)).map lineDelta).sum = 0 := hzero'
    have hdelta := delta_sum (((pyLines text).drop s).take (e - s + 1))
    rw [joinLines_count '{' (by decide), joinLines_count '}' (by decide)]
    omega

/-- C4 (counterexample): this document is balanced — equal numbers of
opening and closing braces, and the per-line cumulative depth never goes
negative — it declares `Foo`, and the declaring line has a well-formed
preceding standalone opening-brace line; yet extraction fails, because
the final line closes three braces at once and the running depth jumps
from 1 to -2, never passing through zero. -/
theorem c4_counterexample :
    (((pyLines ("\x7b\x7b\n\x7b\nmodule: \"Foo\"\n\x7d\x7d\x7d")).map
        (fun l => l.data.count '{')).sum
      = ((pyLines ("\x7b\x7b\n\x7b\nmodule: \"Foo\"\n\x7d\x7d\x7d")).map
        (fun l => l.data.count '}')).sum)
    ∧ (∀ k, k < (pyLines ("\x7b\x7b\n\x7b\nmodule: \"Foo\"\n\x7d\x7d\x7d")).length →
        0 ≤ depthTo (pyLines ("\x7b\x7b\n\x7b\nmodule: \"Foo\"\n\x7d\x7d\x7d")) 0 k)
    ∧ findDecl ("Foo") (pyLines ("\x7b\x7b\n\x7b\nmodule: \"Foo\"\n\x7d\x7d\x7d")) = some 2
    ∧ braceOnly ((pyLines ("\x7b\x7b\n\x7b\nmodule: \"Foo\"\n\x7d\x7d\x7d")).getD 1 "") = true
    ∧ extract_module_block ("\x7b\x7b\n\x7b\nmodule: \"Foo\"\n\x7d\x7d\x7d") ("Foo") = none := by
  decide

theorem c4_witness :
    findDecl ("Foo") (pyLines ("\x7b\nmodule: \"Foo\"\n\x7d")) = some 1
    ∧ braceOnly ((pyLines ("\x7b\nmodule: \"Foo\"\n\x7d")).getD 0 "") = true
    ∧ depthTo (pyLines ("\x7b\nmodule: \"Foo\"\n\x7d")) 0 2 = 0
    ∧ extract_module_block ("\x7b\nmodule: \"Foo\"\n\x7d") ("Foo")
        = some ("\x7b\nmodule: \"Foo\"\n\x7d") := by
  refine ⟨by decide, by decide, by decide, ?_⟩
  have h := extract_module_block_success ("\x7b\nmodule: \"Foo\"\n\x7d") ("Foo") 1 0 2
    (by decide) (by decide) (by decide) (by decide) (by decide) (by decide) (by decide)
    (by decide)
  rw [h.1]
  rfl

theorem c5_witness :
    (∀ l ∈ pyLines ("no declaration here"), declLine l ("Foo") = false)
    ∧ extract_module_block ("no declaration here") ("Foo") = none := by
  refine ⟨by decide, ?_⟩
  exact extract_module_block_not_found ("no declaration here") ("Foo") (Or.inl (by decide))

theorem matchAfterKey_sound {t m : List Char} (h : matchAfterKey t m = true) :
    ∃ sp q q' b, t = sp ++ q :: (m ++ q' :: b) ∧ (∀ c ∈ sp, isSpaceCh c = true)
      ∧ isQuoteCh q = true ∧ isQuoteCh q' = true := by
  unfold matchAfterKey at h
  cases hdw : t.dropWhile isSpaceCh with
  | nil => rw [hdw] at h; simp at h
  | cons q rest =>
    rw [hdw] at h
    simp only [Bool.and_eq_true] at h
    obtain ⟨⟨hq, hpre⟩, hmk⟩ := h
    obtain ⟨tl, htl⟩ := List.isPrefixOf_iff_prefix.mp hpre
    have hdrop : rest.drop m.length = tl := by
      rw [← htl]
      exact List.drop_left _ _
    rw [hdrop] at hmk
    cases tl with
    | nil => simp at hmk
    | cons q2 b =>
      simp only [] at hmk
      refine ⟨t.takeWhile isSpaceCh, q, q2, b, ?_, ?_, hq, hmk⟩
      · conv_lhs => rw [← List.takeWhile_append_dropWhile (p := isSpaceCh) (l := t)]
        rw [hdw, ← htl]
      · intro a ha
        exact List.all_eq_true.mp (List.all_takeWhile (p := isSpaceCh) (l := t)) a ha

theorem declMatch_sound : ∀ (l m : List Char), declMatch l m = true →
    ∃ a sp q q' b, l = a ++ ("module:".data) ++ sp ++ q :: (m ++ q' :: b)
      ∧ (∀ c ∈ sp, isSpaceCh c = true) ∧ isQuoteCh q = true ∧ isQuoteCh q' = true := by
  intro l
  induction l with
  | nil => intro m h; simp [declMatch] at h
  | cons c cs ih =>
    intro m h
    unfold declMatch at h
    simp only [Bool.or_eq_true] at h
    rcases h with h1 | h2
    · simp only [Bool.and_eq_true] at h1
      obtain ⟨hpre, hmk⟩ := h1
      obtain ⟨t, ht⟩ := List.isPrefixOf_iff_prefix.mp hpre
      have hdrop : (c :: cs).drop 7 = t := by
        rw [← ht]
        show List.drop ((("module:".data) : List Char).length) (("module:".data) ++ t) = t
        exact List.drop_left _ _
      rw [hdrop] at hmk
      obtain ⟨sp, q, q', b, hteq, hsp, hq, hq'⟩ := matchAfterKey_sound hmk
      refine ⟨[], sp, q, q', b, ?_, hsp, hq, hq'⟩
      rw [← ht, hteq]
      simp
    · obtain ⟨a, sp, q, q', b, heq, hsp, hq, hq'⟩ := ih m h2
      refine ⟨c :: a, sp, q, q', b, ?_, hsp, hq, hq'⟩
      simp [heq]

theorem takeWhile_notQuote {X Y : List Char} {q : Char}
    (hX : ∀ c ∈ X, isQuoteCh c = false) (hq : isQuoteCh q = true) :
    (X ++ q :: Y).takeWhile (fun c => !isQuoteCh c) = X := by
  induction X with
  | nil =>
    simp only [List.nil_append]
    rw [List.takeWhile_cons_of_neg]
    simp [hq]
  | cons x xs ih =>
    have hx : isQuoteCh x = false := hX x (List.mem_cons_self _ _)
    simp only [List.cons_append]
    rw [List.takeWhile_cons_of_pos (by simp [hx])]
    rw [ih (fun c hc => hX c (List.mem_cons_of_mem _ hc))]

theorem quote_occurrence_unique
    {A B n2 m s t : List Char} {qa qb q q' : Char}
    (hA : ∀ c ∈ A, isQuoteCh c = false) (hB : ∀ c ∈ B, isQuoteCh c = false)
    (hn : ∀ c ∈ n2, isQuoteCh c = false) (hm : ∀ c ∈ m, isQuoteCh c = false)
    (hqa : isQuoteCh qa = true) (hqb : isQuoteCh qb = true)
    (hq : isQuoteCh q = true) (hq' : isQuoteCh q' = true)
    (heq : A ++ qa :: (n2 ++ qb :: B) = s ++ q :: (m ++ q' :: t)) :
    m = n2 := by
  have hA0 : A.countP isQuoteCh = 0 :=
    List.countP_eq_zero.mpr (fun c hc => by simp [hA c hc])
  have hn0 : n2.countP isQuoteCh = 0 :=
    List.countP_eq_zero.mpr (fun c hc => by simp [hn c hc])
  have hB0 : B.countP isQuoteCh = 0 :=
    List.countP_eq_zero.mpr (fun c hc => by simp [hB c hc])
  have hm0 : m.countP isQuoteCh = 0 :=
    List.countP_eq_zero.mpr (fun c hc => by simp [hm c hc])
  have hcount : (A ++ qa :: (n2 ++ qb :: B)).countP isQuoteCh = 2 := by
    rw [List.countP_append, List.countP_cons, List.countP_append, List.countP_cons]
    rw [hA0, hn0, hB0]
    simp [hqa, hqb]
  have hcount2 : (s ++ q :: (m ++ q' :: t)).countP isQuoteCh = 2 := by
    rw [← heq]; exact hcount
  rw [List.countP_append, List.countP_cons, List.countP_append, List.countP_cons, hm0]
    at hcount2
  simp [hq, hq'] at hcount2
  have hst : s.countP isQuoteCh = 0 ∧ t.countP isQuoteCh = 0 := by
    constructor <;> omega
  have hs0 : ∀ c ∈ s, isQuoteCh c = false := by
    intro c hc
    have := List.countP_eq_zero.mp hst.1 c hc
    simpa using this
  have ht0 : ∀ c ∈ t, isQuoteCh c = false := by
    intro c hc
    have := List.countP_eq_zero.mp hst.2 c hc
    simpa using this
  have h1 : (A ++ qa :: (n2 ++ qb :: B)).takeWhile (fun c => !isQuoteCh c) = A :=
    takeWhile_notQuote hA hqa
  have h2 : (s ++ q :: (m ++ q' :: t)).takeWhile (fun c => !isQuoteCh c) = s :=
    takeWhile_notQuote hs0 hq
  have hAs : A = s := by
    rw [← h1, ← h2, heq]
  subst hAs
  have hcancel : qa :: (n2 ++ qb :: B) = q :: (m ++ q' :: t) :=
    List.append_cancel_left heq
  have hinner : n2 ++ qb :: B = m ++ q' :: t := (List.cons.injEq _ _ _ _ ▸ hcancel).2
  have h3 : (n2 ++ qb :: B).takeWhile (fun c => !isQuoteCh c) = n2 :=
    takeWhile_notQuote hn hqb
  have h4 : (m ++ q' :: t).takeWhile (fun c => !isQuoteCh c) = m :=
    takeWhile_notQuote hm hq'
  rw [← h3, ← h4, hinner]

/-- C6: the declaration matcher is exact on the name — a line whose only
quoted text is a declaration of the strict superstring
`pre ++ name ++ suf` (with quote-free surroundings) never matches a
search for `name`; the name is compared literally (the Python code
escapes it with `re.escape`), so substring collisions like searching
`"Foo"` against a declaration of `"Foo2"` are impossible. -/
theorem declMatch_no_superstring_collision
    (indent trail pre name suf : List Char)
    (hstrict : pre ≠ [] ∨ suf ≠ [])
    (hindent : ∀ c ∈ indent, isQuoteCh c = false)
    (htrail : ∀ c ∈ trail, isQuoteCh c = false)
    (hname2 : ∀ c ∈ pre ++ name ++ suf, isQuoteCh c = false) :
    declMatch
      (indent ++ ("module: ".data)
        ++ Char.ofNat 34 :: ((pre ++ name ++ suf) ++ Char.ofNat 34 :: trail))
      name = false := by
  rcases Bool.eq_false_or_eq_true (declMatch
      (indent ++ ("module: ".data)
        ++ Char.ofNat 34 :: ((pre ++ name ++ suf) ++ Char.ofNat 34 :: trail))
      name) with h | h
  case inr =>
    exact h
  case inl =>
    exfalso
    obtain ⟨a, sp, q, q', b, heq, hsp, hq, hq'⟩ := declMatch_sound _ _ h
    have hkeyfree : ∀ c ∈ ("module: ".data), isQuoteCh c = false := by decide
    have hAfree : ∀ c ∈ indent ++ ("module: ".data), isQuoteCh c = false := by
      intro c hc
      rcases List.mem_append.mp hc with hc1 | hc2
      · exact hindent c hc1
      · exact hkeyfree c hc2
    have hnamefree : ∀ c ∈ name, isQuoteCh c = false := by
      intro c hc
      exact hname2 c (by simp [hc])
    have heq' : (indent ++ ("module: ".data))
        ++ (Char.ofNat 34) :: ((pre ++ name ++ suf) ++ (Char.ofNat 34) :: trail)
        = ((a ++ ("module:".data)) ++ sp) ++ q :: (name ++ q' :: b) := by
      have h0 := heq
      simp only [List.append_assoc, List.cons_append] at h0 ⊢
      exact h0
    have hmn := quote_occurrence_unique hAfree htrail hname2 hnamefree
      (by decide) (by decide) hq hq' heq'
    have hlen := congrArg List.length hmn
    simp only [List.length_append] at hlen
    rcases hstrict with hpre | hsuf
    · exact hpre (List.length_eq_zero.mp (by omega))
    · exact hsuf (List.length_eq_zero.mp (by omega))

theorem c6_witness :
    ((['2'] : List Char) ≠ [])
    ∧ declMatch (("module: \"Foo2\"").data) (("Foo").data) = false := by
  refine ⟨by decide, ?_⟩
  have h := declMatch_no_superstring_collision [] [] [] (("Foo").data) ['2']
    (Or.inr (by decide)) (by decide) (by decide) (by decide)
  have hshape : ([] : List Char) ++ ("module: ".data)
      ++ Char.ofNat 34
        :: ((([] : List Char) ++ ("Foo").data ++ ['2']) ++ Char.ofNat 34 :: ([] : List Char))
      = ("module: \"Foo2\"").data := by decide
  rw [hshape] at h
  exact h

theorem chunkList_length (T : String → Option String) (n : Nat) (up : Bool) :
    ∀ (L : List String) (i : Nat), (chunkList T n up i L).length = L.length := by
  intro L
  induction L with
  | nil => intro i; rfl
  | cons m rest ih =>
    intro i
    unfold chunkList
    simp [ih]

theorem buildModules_eq (T : String → Option String) (n : Nat) (up : Bool) :
    ∀ (L : List String) (i : Nat), (∀ m ∈ L, (T m).isSome = true) →
      buildModules T n up i L = Except.ok (joinAll (chunkList T n up i L)) := by
  intro L
  induction L with
  | nil => intro i _; rfl
  | cons m rest ih =>
    intro i h
    have hm : (T m).isSome = true := h m (List.mem_cons_self _ _)
    obtain ⟨t, htm⟩ := Option.isSome_iff_exists.mp hm
    unfold buildModules chunkList
    rw [htm, ih (i + 1) (fun x hx => h x (List.mem_cons_of_mem _ hx))]
    simp [Except.map, joinAll, htm]

theorem countP_range_lt (mth : Nat) :
    ∀ n, (List.range n).countP (fun i => decide (i < mth)) = min mth n := by
  intro n
  induction n with
  | zero => simp
  | succ k ih =>
    rw [List.range_succ, List.countP_append, ih]
    have hone : List.countP (fun i => decide (i < mth)) [k]
        = if k < mth then 1 else 0 := by
      by_cases h : k < mth
      · simp [List.countP_cons, h]
      · simp [List.countP_cons, h]
    rw [hone]
    by_cases h : k < mth
    · rw [if_pos h]; omega
    · rw [if_neg h]; omega

/-- C3: for a nonempty plan whose prologue, epilogue, fragments (and
pages file, when active) all exist, assembly succeeds and the output is
the prologue, then the per-entity chunks in plan order, then the paged
section (if active), then the epilogue; the `i`-th chunk carries an
appended comma separator iff `i < N - 1` or the paged section is
active, so the number of appended separators is exactly `N - 1` without
the paged section and exactly `N` with it. -/
theorem generate_config_separators (env : Env) (mods : List String) (up : Bool)
    (pmn : Option String)
    (_hne : mods ≠ [])
    (hh : env.head.isSome = true) (htl : env.tail.isSome = true)
    (hp : up = true → env.pages.isSome = true)
    (hT : ∀ m ∈ mods, (env.templates m).isSome = true) :
    generate_config env mods up pmn
      = Except.ok ((env.head.getD "")
          ++ joinAll (chunkList env.templates mods.length up 0 mods)
          ++ (if up then pagesSubst (env.pages.getD "") pmn else "")
          ++ (env.tail.getD ""))
    ∧ (chunkList env.templates mods.length up 0 mods).length = mods.length
    ∧ (List.range mods.length).countP (fun i => decide (i < mods.length - 1) || up)
        = if up then mods.length else mods.length - 1 := by
  obtain ⟨hv, hhv⟩ := Option.isSome_iff_exists.mp hh
  obtain ⟨tv, htv⟩ := Option.isSome_iff_exists.mp htl
  refine ⟨?_, chunkList_length _ _ _ _ _, ?_⟩
  · unfold generate_config
    rw [hhv, htv, buildModules_eq env.templates mods.length up mods 0 hT]
    cases up with
    | true =>
      obtain ⟨pv, hpv⟩ := Option.isSome_iff_exists.mp (hp rfl)
      rw [hpv]
      simp [hhv, htv, hpv]
    | false =>
      simp [hhv, htv, String.append_empty]
  · cases up with
    | true =>
      simp [Bool.or_true]
    | false =>
      simp only [Bool.or_false, if_neg Bool.false_ne_true]
      rw [countP_range_lt]
      omega

theorem c3_witness :
    (["x", "y"] ≠ ([] : List String))
    ∧ generate_config envC2 ["x", "y"] false none
        = Except.ok ((envC2.head.getD "")
            ++ joinAll (chunkList envC2.templates 2 false 0 ["x", "y"])
            ++ (if false then pagesSubst (envC2.pages.getD "") none else "")
            ++ (envC2.tail.getD ""))
    ∧ (List.range 2).countP (fun i => decide (i < 1) || false) = 1 := by
  have h := generate_config_separators envC2 ["x", "y"] false none (by decide) (by decide)
    (by decide) (by decide) (by decide)
  refine ⟨by decide, h.1, ?_⟩
  have h3 := h.2.2
  simpa using h3

theorem popStep_mono (env : PopEnv) (st : Store) (mp m : String) (v : String)
    (h : st m = some v) : popStep env st mp m = some v := by
  unfold popStep
  split
  · exact h
  · split
    · exact h
    · cases hfs : firstSource env mp with
      | none => exact h
      | some b =>
        simp only []
        by_cases hmm : m = mp
        · subst hmm
          rename_i hsome
          exact absurd (Option.isSome_iff_exists.mpr ⟨v, h⟩) hsome
        · rw [if_neg hmm]
          exact h

theorem populate_mono (env : PopEnv) :
    ∀ (L : List String) (st : Store) (m v : String), st m = some v →
      populate_templates env L st m = some v := by
  intro L
  induction L with
  | nil => intro st m v h; exact h
  | cons a L2 ih =>
    intro st m v h
    exact ih (popStep env st a) m v (popStep_mono env st a m v h)

theorem populate_source_none (env : PopEnv) :
    ∀ (L : List String) (st : Store) (m : String), m ∈ L →
      List.isPrefixOf ("default/".data) m.data = false →
      populate_templates env L st m = none →
      firstSource env m = none := by
  intro L
  induction L with
  | nil => intro st m hm; exact absurd hm (List.not_mem_nil m)
  | cons a L2 ih =>
    intro st m hm hdef hnone
    rcases List.mem_cons.mp hm with he | hm2
    · subst he
      cases hfs : firstSource env m with
      | none => rfl
      | some b =>
        exfalso
        have hstep : popStep env st m m = some b ∨ ∃ v, st m = some v := by
          unfold popStep
          rw [hdef]
          simp only [Bool.false_eq_true, if_false]
          by_cases hsm : (st m).isSome = true
          · obtain ⟨v, hv⟩ := Option.isSome_iff_exists.mp hsm
            exact Or.inr ⟨v, hv⟩
          · rw [if_neg hsm, hfs]
            simp
        rcases hstep with h1 | ⟨v, h2⟩
        · have hsome := populate_mono env L2 (popStep env st m) m b h1
          have hnone2 : populate_templates env L2 (popStep env st m) m = none := hnone
          rw [hnone2] at hsome
          exact absurd hsome (by simp)
        · have h3 := popStep_mono env st m m v h2
          have hsome := populate_mono env L2 (popStep env st m) m v h3
          have hnone2 : populate_templates env L2 (popStep env st m) m = none := hnone
          rw [hnone2] at hsome
          exact absurd hsome (by simp)
    · exact ih (popStep env st a) m hm2 hdef hnone

theorem popStep_fix (env : PopEnv) (st : Store) (m : String)
    (h : List.isPrefixOf ("default/".data) m.data = true
      ∨ (st m).isSome = true
      ∨ firstSource env m = none) :
    popStep env st m = st := by
  unfold popStep
  rcases h with h1 | h2 | h3
  · rw [if_pos h1]
  · by_cases hd : List.isPrefixOf ("default/".data) m.data = true
    · rw [if_pos hd]
    · rw [if_neg hd, if_pos h2]
  · by_cases hd : List.isPrefixOf ("default/".data) m.data = true
    · rw [if_pos hd]
    · rw [if_neg hd]
      by_cases hs : (st m).isSome = true
      · rw [if_pos hs]
      · rw [if_neg hs, h3]

theorem populate_fix (env : PopEnv) :
    ∀ (L : List String) (st : Store), (∀ m ∈ L, popStep env st m = st) →
      populate_templates env L st = st := by
  intro L
  induction L with
  | nil => intro st _; rfl
  | cons a L2 ih =>
    intro st h
    show populate_templates env L2 (popStep env st a) = st
    rw [h a (List.mem_cons_self _ _)]
    exact ih st (fun m hm => h m (List.mem_cons_of_mem _ hm))

/-- C7: population is idempotent — a module whose fragment already
exists is skipped and its fragment is never overwritten (first
conjunct), and running `populate_templates` a second time against
unchanged sources changes nothing: the fragment store after the second
run is exactly the store after the first (second conjunct). -/
theorem populate_templates_idempotent (env : PopEnv) (L : List String) (st : Store) :
    (∀ m v, st m = some v → populate_templates env L st m = some v)
    ∧ populate_templates env L (populate_templates env L st)
        = populate_templates env L st := by
  constructor
  · intro m v h
    exact populate_mono env L st m v h
  · apply populate_fix
    intro m hm
    apply popStep_fix
    by_cases hdef : List.isPrefixOf ("default/".data) m.data = true
    · exact Or.inl hdef
    · by_cases hsm : (populate_templates env L st m).isSome = true
      · exact Or.inr (Or.inl hsm)
      · refine Or.inr (Or.inr ?_)
        apply populate_source_none env L st m hm
        · cases hd : List.isPrefixOf ("default/".data) m.data
          · rfl
          · exact absurd hd hdef
        · cases hn : populate_templates env L st m with
          | none => rfl
          | some v => rw [hn] at hsm; simp at hsm

theorem c7_witness :
    ((fun n => if n = "x" then some "  x: 1," else none) : Store) "x" = some "  x: 1,"
    ∧ populate_templates ⟨"", fun _ => none, fun _ => none⟩ ["x", "y"]
        (fun n => if n = "x" then some "  x: 1," else none) "x" = some "  x: 1,"
    ∧ populate_templates ⟨"", fun _ => none, fun _ => none⟩ ["x", "y"]
        (populate_templates ⟨"", fun _ => none, fun _ => none⟩ ["x", "y"]
          (fun n => if n = "x" then some "  x: 1," else none))
      = populate_templates ⟨"", fun _ => none, fun _ => none⟩ ["x", "y"]
        (fun n => if n = "x" then some "  x: 1," else none) := by
  refine ⟨rfl, ?_, ?_⟩
  · exact (populate_templates_idempotent ⟨"", fun _ => none, fun _ => none⟩ ["x", "y"]
      (fun n => if n = "x" then some "  x: 1," else none)).1 "x" "  x: 1," rfl
  · exact (populate_templates_idempotent ⟨"", fun _ => none, fun _ => none⟩ ["x", "y"]
      (fun n => if n = "x" then some "  x: 1," else none)).2

theorem buildModules_ok_iff (T : String → Option String) (n : Nat) (up : Bool) :
    ∀ (L : List String) (i : Nat),
      (∃ str, buildModules T n up i L = Except.ok str) ↔ (∀ m ∈ L, (T m).isSome = true) := by
  intro L
  induction L with
  | nil => intro i; simp [buildModules]
  | cons m rest ih =>
    intro i
    constructor
    · rintro ⟨str, hs⟩ x hx
      unfold buildModules at hs
      cases hTm : T m with
      | none => rw [hTm] at hs; simp at hs
      | some t =>
        rw [hTm] at hs
        rcases List.mem_cons.mp hx with he | hx2
        · subst he; simp [hTm]
        · cases hrec : buildModules T n up (i + 1) rest with
          | error e => rw [hrec] at hs; simp [Except.map] at hs
          | ok s2 => exact ((ih (i + 1)).mp ⟨s2, hrec⟩) x hx2
    · intro h
      rw [buildModules_eq T n up (m :: rest) i h]
      exact ⟨_, rfl⟩

/-- C9: the assembler performs its single write of the active output
(modelled by returning `.ok`) exactly when the prologue, the epilogue,
every fragment referenced by the plan, and — when the paged section is
active — the pages template all exist; whenever any of these resources
is missing it dies (`.error`) without having written the active output. -/
theorem generate_config_write_iff (env : Env) (mods : List String) (up : Bool)
    (pmn : Option String) :
    (∃ c, generate_config env mods up pmn = Except.ok c)
    ↔ (env.head.isSome = true ∧ env.tail.isSome = true
        ∧ (∀ m ∈ mods, (env.templates m).isSome = true)
        ∧ (up = true → env.pages.isSome = true)) := by
  constructor
  · rintro ⟨c, hc⟩
    unfold generate_config at hc
    cases hh : env.head with
    | none => rw [hh] at hc; simp at hc
    | some hv =>
      rw [hh] at hc
      cases htl : env.tail with
      | none => rw [htl] at hc; simp at hc
      | some tv =>
        rw [htl] at hc
        cases hbm : buildModules env.templates mods.length up 0 mods with
        | error e => rw [hbm] at hc; simp at hc
        | ok ms =>
          rw [hbm] at hc
          refine ⟨by simp [hh], by simp [htl],
            (buildModules_ok_iff _ _ _ mods 0).mp ⟨ms, hbm⟩, ?_⟩
          intro hup
          subst hup
          cases hp : env.pages with
          | none => simp [hp] at hc
          | some pv => simp [hp]
  · rintro ⟨hh, htl, hT, hp⟩
    obtain ⟨hv, hhv⟩ := Option.isSome_iff_exists.mp hh
    obtain ⟨tv, htv⟩ := Option.isSome_iff_exists.mp htl
    unfold generate_config
    rw [hhv, htv, buildModules_eq env.templates mods.length up mods 0 hT]
    cases up with
    | true =>
      obtain ⟨pv, hpv⟩ := Option.isSome_iff_exists.mp (hp rfl)
      refine ⟨hv ++ joinAll (chunkList env.templates mods.length true 0 mods)
        ++ pagesSubst pv pmn ++ tv, ?_⟩
      simp [hpv]
    | false =>
      refine ⟨hv ++ joinAll (chunkList env.templates mods.length false 0 mods) ++ tv, ?_⟩
      simp

theorem c9_witness :
    ∃ c, generate_config envC2 ["x", "y"] false none = Except.ok c :=
  (generate_config_write_iff envC2 ["x", "y"] false none).mpr
    ⟨by decide, by decide, by decide, by decide⟩

/-- C1 (amended): for a transaction whose master record and active
output both exist at transaction start, if assembly fails (`die`) or the
verification step raises (the process manager is unreachable), rollback
leaves both files byte-identical to their pre-transaction contents.
(The original claim also covered a verification failure reported via the
external process's exit status; `run_mm_test` invokes
`subprocess.run(..., check=False)`, so such a failure is silently
ignored and does not trigger rollback — see the counterexample.) -/
theorem test_flow_failure_restores (env : Env) (fs0 : FS) (mods : List String)
    (ap : Bool) (pmn : Option String) (allow : Bool) (verify : VerifyOutcome)
    (conf : Bool) (m0 c0 : String)
    (hm : fs0.master = some m0) (hc : fs0.configJs = some c0)
    (hfail : (∃ e, generate_config env mods ap pmn = Except.error e)
      ∨ verify = VerifyOutcome.unreachable) :
    ((test_flow env fs0 mods ap pmn allow verify conf).2.1).master = some m0
    ∧ ((test_flow env fs0 mods ap pmn allow verify conf).2.1).configJs = some c0 := by
  rcases hfail with ⟨e, he⟩ | hv
  · simp only [test_flow, he]
    exact ⟨by simp [rollback, backup, hm], by simp [rollback, backup, hc]⟩
  · cases hgen : generate_config env mods ap pmn with
    | error e =>
      simp only [test_flow, hgen]
      exact ⟨by simp [rollback, backup, hm], by simp [rollback, backup, hc]⟩
    | ok c =>
      subst hv
      simp only [test_flow, hgen]
      exact ⟨by simp [rollback, backup, hm], by simp [rollback, backup, hc]⟩

/-- C1 (counterexample): a transaction in which assembly succeeds and
external verification fails via the process's exit status
(`completed false`, i.e. `pm2 restart` returned nonzero under
`check=False`): the transaction ends normally with the active output
holding the newly assembled content, not its pre-transaction content —
refuting the claim that a verification failure leaves the output
byte-identical to before. -/
theorem c1_counterexample :
    (test_flow (⟨some "h", some "t", none, fun _ => none⟩ : Env)
        (⟨some "m0", none, some "c0", none⟩ : FS) [] false none false
        (VerifyOutcome.completed false) true).1 = TransResult.returned false
    ∧ ((test_flow (⟨some "h", some "t", none, fun _ => none⟩ : Env)
        (⟨some "m0", none, some "c0", none⟩ : FS) [] false none false
        (VerifyOutcome.completed false) true).2.1).configJs = some "ht"
    ∧ (⟨some "m0", none, some "c0", none⟩ : FS).configJs = some "c0"
    ∧ some "ht" ≠ some "c0" := by
  refine ⟨rfl, rfl, rfl, by decide⟩

theorem c1_witness :
    (⟨some "M", none, some "C", none⟩ : FS).master = some "M"
    ∧ ((test_flow (⟨none, none, none, fun _ => none⟩ : Env)
        (⟨some "M", none, some "C", none⟩ : FS) [] false none false
        (VerifyOutcome.completed true) true).2.1).master = some "M"
    ∧ ((test_flow (⟨none, none, none, fun _ => none⟩ : Env)
        (⟨some "M", none, some "C", none⟩ : FS) [] false none false
        (VerifyOutcome.completed true) true).2.1).configJs = some "C" := by
  have h := test_flow_failure_restores (⟨none, none, none, fun _ => none⟩ : Env)
    (⟨some "M", none, some "C", none⟩ : FS) [] false none false
    (VerifyOutcome.completed true) true "M" "C" rfl rfl
    (Or.inl ⟨"Missing head file", rfl⟩)
  exact ⟨rfl, h.1, h.2⟩

theorem rollbackLog_no_accept (fs : FS) : ∀ c, MWrite.accept c ∉ rollbackLog fs := by
  intro c
  unfold rollbackLog
  cases fs.masterBak <;> simp

theorem rollbackLog_countP (fs : FS) : (rollbackLog fs).countP isAcceptW = 0 := by
  unfold rollbackLog
  cases fs.masterBak <;> simp [List.countP_cons, isAcceptW]

/-- C8: in every transaction the master record receives at most one
Accepted-transition write, and such a write happens only when master
update is allowed, the caller confirms, assembly succeeded with exactly
the accepted content, and verification did not raise; if the caller
declines, update is not allowed, assembly failed, or verification
raised, the master record afterwards still holds its original content
(it is at most restored from its snapshot). -/
theorem test_flow_master_mutation (env : Env) (fs0 : FS) (mods : List String)
    (ap : Bool) (pmn : Option String) (allow : Bool) (verify : VerifyOutcome)
    (conf : Bool) :
    ((test_flow env fs0 mods ap pmn allow verify conf).2.2).countP isAcceptW ≤ 1
    ∧ (∀ c, MWrite.accept c ∈ (test_flow env fs0 mods ap pmn allow verify conf).2.2 →
        allow = true ∧ conf = true
        ∧ generate_config env mods ap pmn = Except.ok c
        ∧ verify ≠ VerifyOutcome.unreachable)
    ∧ (∀ m0, fs0.master = some m0 →
        (¬(allow = true ∧ conf = true)
          ∨ (∃ e, generate_config env mods ap pmn = Except.error e)
          ∨ verify = VerifyOutcome.unreachable) →
        ((test_flow env fs0 mods ap pmn allow verify conf).2.1).master = some m0) := by
  cases hgen : generate_config env mods ap pmn with
  | error e =>
    refine ⟨?_, ?_, ?_⟩
    · simp only [test_flow, hgen]
      rw [rollbackLog_countP]
      omega
    · intro c hc
      simp only [test_flow, hgen] at hc
      exact absurd hc (rollbackLog_no_accept _ c)
    · intro m0 hm0 _
      simp only [test_flow, hgen]
      simp [rollback, backup, hm0]
  | ok c =>
    cases verify with
    | unreachable =>
      refine ⟨?_, ?_, ?_⟩
      · simp only [test_flow, hgen]
        rw [rollbackLog_countP]
        omega
      · intro c2 hc2
        simp only [test_flow, hgen] at hc2
        exact absurd hc2 (rollbackLog_no_accept _ c2)
      · intro m0 hm0 _
        simp only [test_flow, hgen]
        simp [rollback, backup, hm0]
    | completed okb =>
      cases allow with
      | false =>
        refine ⟨?_, ?_, ?_⟩
        · simp [test_flow, hgen]
        · intro c2 hc2
          simp [test_flow, hgen] at hc2
        · intro m0 hm0 _
          simp only [test_flow, hgen]
          simp [backup, hm0]
      | true =>
        cases conf with
        | false =>
          refine ⟨?_, ?_, ?_⟩
          · simp [test_flow, hgen, rollbackLog_countP]
          · intro c2 hc2
            simp [test_flow, hgen] at hc2
            exact absurd hc2 (rollbackLog_no_accept _ c2)
          · intro m0 hm0 _
            simp only [test_flow, hgen]
            simp [rollback, backup, hm0]
        | true =>
          refine ⟨?_, ?_, ?_⟩
          · simp [test_flow, hgen, List.countP_cons, isAcceptW]
          · intro c2 hc2
            simp [test_flow, hgen] at hc2
            have hc2e : c2 = c := by
              simpa using hc2
            subst hc2e
            exact ⟨rfl, rfl, rfl, by simp⟩
          · intro m0 hm0 hfail
            exfalso
            rcases hfail with h1 | ⟨e, h2⟩ | h3
            · exact h1 ⟨rfl, rfl⟩
            · exact absurd h2 (by simp)
            · exact absurd h3 (by simp)

theorem c8_witness :
    ((test_flow (⟨some "h", some "t", none, fun _ => none⟩ : Env)
        (⟨some "M", none, some "C", none⟩ : FS) [] false none false
        (VerifyOutcome.completed true) true).2.2).countP isAcceptW ≤ 1
    ∧ ((test_flow (⟨some "h", some "t", none, fun _ => none⟩ : Env)
        (⟨some "M", none, some "C", none⟩ : FS) [] false none false
        (VerifyOutcome.completed true) true).2.1).master = some "M" := by
  have h := test_flow_master_mutation (⟨some "h", some "t", none, fun _ => none⟩ : Env)
    (⟨some "M", none, some "C", none⟩ : FS) [] false none false
    (VerifyOutcome.completed true) true
  exact ⟨h.1, h.2.2 "M" rfl (Or.inl (by decide))⟩

/-- C10: block extraction is total — for every input text and module
name (the name is matched literally, so regex metacharacters are
harmless), `extract_module_block` returns either `none` or a block that
is the join of a contiguous slice of the input's lines; no other outcome
(in particular no exception) is possible. -/
theorem extract_module_block_total (text module : String) :
    extract_module_block text module = none
    ∨ ∃ s k, extract_module_block text module
        = some (joinLines (((pyLines text).drop s).take k)) := by
  unfold extract_module_block
  split
  · exact Or.inl rfl
  · split
    · exact Or.inl rfl
    · split
      · split
        · exact Or.inl rfl
        · exact Or.inr ⟨_, _, rfl⟩
      · exact Or.inr ⟨_, _, rfl⟩

/-- C2 (counterexample): on the stated scenario the assembler does not
produce the claimed document — the canonical six-space indentation is
prepended to the fragments' own two leading spaces, so each entity line
begins with eight spaces, not six. -/
theorem c2_counterexample :
    generate_config envC2 ["x", "y"] false none
      = Except.ok ("A\x7b\n        x: 1,\n        y: 2\n\x7d\n")
    ∧ ("A\x7b\n        x: 1,\n        y: 2\n\x7d\n"
        ≠ "A\x7b\n      x: 1,\n      y: 2\n\x7d\n") := by
  constructor
  · rfl
  · decide

/-- C2 (amended): with prologue `"A\x7b\n"`, epilogue `"\x7d\n"`, no paged
section, plan `["x","y"]` and fragments `"  x: 1,"`, `"  y: 2"`, assembly
produces exactly `"A\x7b\n        x: 1,\n        y: 2\n\x7d\n"` — the
canonical indentation is prepended to the fragments' own leading spaces. -/
theorem c2_assembly_scenario :
    generate_config envC2 ["x", "y"] false none
      = Except.ok ("A\x7b\n        x: 1,\n        y: 2\n\x7d\n") := by
  rfl
